import Mathlib

/-!
Verification of the ShiftyEMA fixed-point exponential-moving-average filter
(`src/ShiftyEMA.h`).

The C++ class state and its five operations are embedded shallowly.
Machine integers (`int16_t` samples, `int32_t` accumulator) are modelled as
unbounded integers: the documented contract makes overflow a caller
precondition, and on the two's-complement targets the library addresses,
`x << k` is multiplication by `2 ^ k` and the arithmetic right shift `x >> k`
is floor division by `2 ^ k`, which for `Int` is `x / 2 ^ k` (Euclidean
division coincides with floor division for positive divisors).
-/

/-- State of the `ShiftyEMA` class (private fields, `ShiftyEMA.h` lines
120-126): the scaled accumulator, the smoothing exponent, the first-update
flag, the scale (fractional bits) and the precomputed rounding constant. -/
structure ShiftyEMA where
  scaledEMA : Int
  smoothingExponent : Nat
  firstUpdate : Bool
  scale : Nat
  rounding : Int
  deriving DecidableEq

/-- Enum `SmoothingExponent` value `SMOOTHING_VALUE_1` (divisor `2 ^ 0`). -/
def ShiftyEMA.SMOOTHING_VALUE_1 : Nat := 0

/-- Enum value `SMOOTHING_VALUE_2` (divisor `2 ^ 1`). -/
def ShiftyEMA.SMOOTHING_VALUE_2 : Nat := 1

/-- Enum value `SMOOTHING_VALUE_4` (divisor `2 ^ 2`). -/
def ShiftyEMA.SMOOTHING_VALUE_4 : Nat := 2

/-- Enum value `SMOOTHING_VALUE_8` (divisor `2 ^ 3`). -/
def ShiftyEMA.SMOOTHING_VALUE_8 : Nat := 3

/-- Enum value `SMOOTHING_VALUE_16` (divisor `2 ^ 4`). -/
def ShiftyEMA.SMOOTHING_VALUE_16 : Nat := 4

/-- Enum value `SMOOTHING_VALUE_32` (divisor `2 ^ 5`). -/
def ShiftyEMA.SMOOTHING_VALUE_32 : Nat := 5

/-- Enum value `SMOOTHING_VALUE_64` (divisor `2 ^ 6`). -/
def ShiftyEMA.SMOOTHING_VALUE_64 : Nat := 6

/-- Enum value `SMOOTHING_VALUE_128` (divisor `2 ^ 7`). -/
def ShiftyEMA.SMOOTHING_VALUE_128 : Nat := 7

/-- Enum value `SMOOTHING_VALUE_256` (divisor `2 ^ 8`). -/
def ShiftyEMA.SMOOTHING_VALUE_256 : Nat := 8

/-- Enum value `SMOOTHING_VALUE_512` (divisor `2 ^ 9`). -/
def ShiftyEMA.SMOOTHING_VALUE_512 : Nat := 9

/-- The set of smoothing exponents recognised by the `SmoothingExponent`
enum: the integers `0 .. 9`. -/
def ShiftyEMA.ValidSmoothing (k : Nat) : Prop := k ≤ 9

instance (k : Nat) : Decidable (ShiftyEMA.ValidSmoothing k) := by
  unfold ShiftyEMA.ValidSmoothing; infer_instance

/-- Constructor (`ShiftyEMA.h` lines 77-80): stores the configuration,
sets `firstUpdate = true`, `scaledEMA = 0` and
`rounding = 1 << (scale - 1)`.  The constructor is meaningful for
`scale ≥ 1` (for `scale = 0` the C++ shift by `-1` is undefined; the
claims under verification all assume `scale ≥ 1`). -/
def ShiftyEMA.init (smoothing : Nat) (scale : Nat) : ShiftyEMA :=
  { scaledEMA := 0
    smoothingExponent := smoothing
    firstUpdate := true
    scale := scale
    rounding := 2 ^ (scale - 1) }

/-- Method `updateEMA(newValue)` (`ShiftyEMA.h` lines 82-94): on the first update
seed `scaledEMA = newValue << scale`; afterwards apply
`scaledEMA = scaledEMA - (scaledEMA >> smoothingExponent)
            + ((newValue << scale) >> smoothingExponent)`. -/
def ShiftyEMA.updateEMA (st : ShiftyEMA) (newValue : Int) : ShiftyEMA :=
  if st.firstUpdate then
    { st with scaledEMA := newValue * 2 ^ st.scale, firstUpdate := false }
  else
    { st with scaledEMA :=
        st.scaledEMA - st.scaledEMA / 2 ^ st.smoothingExponent
          + newValue * 2 ^ st.scale / 2 ^ st.smoothingExponent }

/-- Method `getCurrentEMA()` (`ShiftyEMA.h` lines 104-107): de-scale with
round-to-nearest, `(scaledEMA + rounding) >> scale`. -/
def ShiftyEMA.getCurrentEMA (st : ShiftyEMA) : Int :=
  (st.scaledEMA + st.rounding) / 2 ^ st.scale

/-- Method `getScaledEMA()` (`ShiftyEMA.h` lines 109-112): the raw accumulator. -/
def ShiftyEMA.getScaledEMA (st : ShiftyEMA) : Int :=
  st.scaledEMA

/-- The overload `getCurrentEMA(newValue)` (`ShiftyEMA.h` lines 97-101):
ingest the sample, then read; returns the mutated state and the value. -/
def ShiftyEMA.getCurrentEMAUpdate (st : ShiftyEMA) (newValue : Int) :
    ShiftyEMA × Int :=
  (st.updateEMA newValue, (st.updateEMA newValue).getCurrentEMA)

/-- Method `reset()` (`ShiftyEMA.h` lines 114-118): `firstUpdate = true`,
`scaledEMA = 0`; the `const` configuration fields are untouched. -/
def ShiftyEMA.reset (st : ShiftyEMA) : ShiftyEMA :=
  { st with firstUpdate := true, scaledEMA := 0 }

/-- The public operations of the class, as an alphabet for traces. -/
inductive Op where
  | update (v : Int)
  | ingestRead (v : Int)
  | readCurrent
  | readScaled
  | resetOp

/-- One method call: the successor state and the value returned, if any.
The two reads are `const` methods, so they return the state unchanged. -/
def applyOp (st : ShiftyEMA) : Op → ShiftyEMA × Option Int
  | .update v => (st.updateEMA v, none)
  | .ingestRead v => ((st.getCurrentEMAUpdate v).1, some (st.getCurrentEMAUpdate v).2)
  | .readCurrent => (st, some st.getCurrentEMA)
  | .readScaled => (st, some st.getScaledEMA)
  | .resetOp => (st.reset, none)

/-- Run a list of method calls, collecting the returned values. -/
def runOps (st : ShiftyEMA) : List Op → ShiftyEMA × List Int
  | [] => (st, [])
  | op :: ops =>
    let p := applyOp st op
    let q := runOps p.1 ops
    (q.1, match p.2 with
          | some v => v :: q.2
          | none => q.2)

/-- The accumulator recurrence of `updateEMA`'s else branch
(`ShiftyEMA.h` line 92) at a fixed sample `c`, as a function of the
accumulator; iterating it describes repeated updates with the constant
sample `c` on an initialized instance. -/
def emaRec (k s : Nat) (c : Int) (a : Int) : Int :=
  a - a / 2 ^ k + c * 2 ^ s / 2 ^ k

/-- States reachable from a fresh instance with configuration `(k, s)`
through any sequence of `updateEMA` and `reset` calls. -/
inductive Reachable (k s : Nat) : ShiftyEMA → Prop where
  | init : Reachable k s (ShiftyEMA.init k s)
  | update {st : ShiftyEMA} (v : Int) :
      Reachable k s st → Reachable k s (st.updateEMA v)
  | reset {st : ShiftyEMA} :
      Reachable k s st → Reachable k s st.reset

/-! ### Basic helper lemmas -/

theorem two_pow_pos (k : Nat) : (0 : Int) < 2 ^ k :=
  pow_pos (by norm_num) k

theorem rounding_lt_pow {s : Nat} (hs : 1 ≤ s) : (2 : Int) ^ (s - 1) < 2 ^ s :=
  pow_lt_pow_right₀ (by norm_num) (by omega)

theorem two_mul_rounding {s : Nat} (hs : 1 ≤ s) :
    (2 : Int) ^ (s - 1) * 2 = 2 ^ s := by
  rw [← pow_succ]
  congr 1
  omega

/-- Adding a remainder in `[0, 2 ^ s)` to a multiple of `2 ^ s` does not
change the quotient. -/
theorem ediv_mul_add_eq (s : Nat) (x r : Int) (h0 : 0 ≤ r) (h1 : r < 2 ^ s) :
    (x * 2 ^ s + r) / 2 ^ s = x := by
  have hne : (2 : Int) ^ s ≠ 0 := (two_pow_pos s).ne'
  have : x * 2 ^ s + r = r + 2 ^ s * x := by ring
  rw [this, Int.add_mul_ediv_left r x hne, Int.ediv_eq_zero_of_lt h0 h1,
    zero_add]

/-- The method `updateEMA` never touches the configuration fields. -/
theorem updateEMA_config (st : ShiftyEMA) (v : Int) :
    (st.updateEMA v).smoothingExponent = st.smoothingExponent ∧
    (st.updateEMA v).scale = st.scale ∧
    (st.updateEMA v).rounding = st.rounding := by
  refine ⟨?_, ?_, ?_⟩ <;> (unfold ShiftyEMA.updateEMA; split <;> rfl)

/-- The method `updateEMA` never touches `smoothingExponent`. -/
theorem updateEMA_smoothing (st : ShiftyEMA) (v : Int) :
    (st.updateEMA v).smoothingExponent = st.smoothingExponent :=
  (updateEMA_config st v).1

/-- The method `updateEMA` never touches `scale`. -/
theorem updateEMA_scale (st : ShiftyEMA) (v : Int) :
    (st.updateEMA v).scale = st.scale :=
  (updateEMA_config st v).2.1

/-- The method `updateEMA` never touches `rounding`. -/
theorem updateEMA_rounding (st : ShiftyEMA) (v : Int) :
    (st.updateEMA v).rounding = st.rounding :=
  (updateEMA_config st v).2.2

/-- On an initialized state, the accumulator moves by exactly
`(newValue << scale >> k) - (scaledEMA >> k)`. -/
theorem updateEMA_scaled_change (st : ShiftyEMA) (v : Int)
    (hf : st.firstUpdate = false) :
    (st.updateEMA v).scaledEMA - st.scaledEMA =
      v * 2 ^ st.scale / 2 ^ st.smoothingExponent -
        st.scaledEMA / 2 ^ st.smoothingExponent := by
  unfold ShiftyEMA.updateEMA
  rw [hf]
  simp only [Bool.false_eq_true, if_false]
  ring

/-- Halving a Euclidean quotient once more: `x / 2 ^ (k + 1) = (x / 2 ^ k) / 2`. -/
theorem ediv_pow_succ (x : Int) (k : Nat) :
    x / 2 ^ (k + 1) = x / 2 ^ k / 2 := by
  have hb : (0 : Int) < 2 ^ k := two_pow_pos k
  have hbne : (2 : Int) ^ k ≠ 0 := hb.ne'
  have hb2 : (0 : Int) < 2 ^ k * 2 := by positivity
  set q : Int := x / (2 ^ k * 2) with hq
  set r : Int := x % (2 ^ k * 2) with hrdef
  have hx : 2 ^ k * 2 * q + r = x := Int.ediv_add_emod x (2 ^ k * 2)
  have hr0 : 0 ≤ r := Int.emod_nonneg x hb2.ne'
  have hr1 : r < 2 ^ k * 2 := Int.emod_lt_of_pos x hb2
  have hxb : x / 2 ^ k = r / 2 ^ k + 2 * q := by
    have : x = r + 2 ^ k * (2 * q) := by rw [← hx]; ring
    rw [this, Int.add_mul_ediv_left r (2 * q) hbne]
  have hsmall : r / 2 ^ k < 2 := by
    rw [Int.ediv_lt_iff_lt_mul hb]
    omega
  have hnn : 0 ≤ r / 2 ^ k := Int.ediv_nonneg hr0 hb.le
  have h2 : x / 2 ^ k / 2 = q := by
    rw [hxb, Int.add_mul_ediv_left (r / 2 ^ k) q (by norm_num : (2 : Int) ≠ 0),
      Int.ediv_eq_zero_of_lt hnn hsmall, zero_add]
  rw [h2, hq, pow_succ]

/-- The quotient gap `y / 2 ^ k - x / 2 ^ k` shrinks (weakly) as the shift
`k` grows, for `x ≤ y`. -/
theorem ediv_pow_gap_antitone {x y : Int} (h : x ≤ y) {k1 k2 : Nat}
    (h12 : k1 ≤ k2) :
    y / 2 ^ k2 - x / 2 ^ k2 ≤ y / 2 ^ k1 - x / 2 ^ k1 := by
  induction k2, h12 using Nat.le_induction with
  | base => exact le_refl _
  | succ n hn ih =>
    have hstep : x / 2 ^ n ≤ y / 2 ^ n := Int.ediv_le_ediv (two_pow_pos n) h
    calc y / 2 ^ (n + 1) - x / 2 ^ (n + 1)
        = y / 2 ^ n / 2 - x / 2 ^ n / 2 := by
          rw [ediv_pow_succ, ediv_pow_succ]
      _ ≤ y / 2 ^ n - x / 2 ^ n := by omega
      _ ≤ y / 2 ^ k1 - x / 2 ^ k1 := ih

theorem one_le_two_pow (k : Nat) : (1 : Int) ≤ 2 ^ k := by
  simpa using pow_le_pow_right₀ (by norm_num : (1 : Int) ≤ 2) (Nat.zero_le k)

/-- With `k ≤ s`, the scaled target `c * 2 ^ s` is an exact multiple of
`2 ^ k`. -/
theorem target_ediv_mul {k s : Nat} (hks : k ≤ s) (c : Int) :
    c * 2 ^ s / 2 ^ k * 2 ^ k = c * 2 ^ s :=
  Int.ediv_mul_cancel ((pow_dvd_pow 2 hks).mul_left c)

/-- Inside the band `[c * 2 ^ s, c * 2 ^ s + 2 ^ k)` the accumulator and
the target have the same quotient by `2 ^ k`. -/
theorem band_ediv_eq {k s : Nat} (hks : k ≤ s) (c a : Int)
    (h1 : c * 2 ^ s ≤ a) (h2 : a < c * 2 ^ s + 2 ^ k) :
    a / 2 ^ k = c * 2 ^ s / 2 ^ k := by
  have hC := target_ediv_mul hks c
  have e : a = c * 2 ^ s / 2 ^ k * 2 ^ k + (a - c * 2 ^ s / 2 ^ k * 2 ^ k) := by
    ring
  rw [e]
  exact ediv_mul_add_eq k _ _ (by linarith) (by linarith)

/-- In the band, the constant-sample recurrence is at a fixed point. -/
theorem emaRec_fixed {k s : Nat} (hks : k ≤ s) (c a : Int)
    (h1 : c * 2 ^ s ≤ a) (h2 : a < c * 2 ^ s + 2 ^ k) :
    emaRec k s c a = a := by
  unfold emaRec
  rw [band_ediv_eq hks c a h1 h2]
  ring

/-- Strictly above the band, one constant-sample step decreases the
accumulator but never drops it below the target. -/
theorem emaRec_above {k s : Nat} (hks : k ≤ s) (c a : Int)
    (h : c * 2 ^ s + 2 ^ k ≤ a) :
    c * 2 ^ s ≤ emaRec k s c a ∧ emaRec k s c a ≤ a - 1 := by
  have hC := target_ediv_mul hks c
  have hq1 : c * 2 ^ s / 2 ^ k + 1 ≤ a / 2 ^ k := by
    rw [Int.le_ediv_iff_mul_le (two_pow_pos k)]
    nlinarith [hC]
  have f1 : a / 2 ^ k * 2 ^ k ≤ a := Int.ediv_mul_le a (two_pow_pos k).ne'
  constructor
  · unfold emaRec
    have hprod : 0 ≤ (a / 2 ^ k - c * 2 ^ s / 2 ^ k) * (2 ^ k - 1) :=
      mul_nonneg (by linarith) (by linarith [one_le_two_pow k])
    nlinarith [hC, f1, hprod]
  · unfold emaRec
    linarith

/-- Strictly below the target, one constant-sample step increases the
accumulator but never pushes it past the target. -/
theorem emaRec_below {k s : Nat} (hks : k ≤ s) (c a : Int)
    (h : a < c * 2 ^ s) :
    a + 1 ≤ emaRec k s c a ∧ emaRec k s c a ≤ c * 2 ^ s := by
  have hC := target_ediv_mul hks c
  have hq1 : a / 2 ^ k + 1 ≤ c * 2 ^ s / 2 ^ k := by
    have : a / 2 ^ k < c * 2 ^ s / 2 ^ k := by
      rw [Int.ediv_lt_iff_lt_mul (two_pow_pos k)]
      nlinarith [hC]
    omega
  have f1 : a < (a / 2 ^ k + 1) * 2 ^ k :=
    Int.lt_ediv_add_one_mul_self a (two_pow_pos k)
  constructor
  · unfold emaRec
    linarith
  · unfold emaRec
    have hprod : (2 ^ k - 1) * 1 ≤
        (2 ^ k - 1) * (c * 2 ^ s / 2 ^ k - a / 2 ^ k) :=
      mul_le_mul_of_nonneg_left (by linarith) (by linarith [one_le_two_pow k])
    nlinarith [hC, f1, hprod]

/-- At or above the target, one step stays at or above it and does not
increase the accumulator. -/
theorem emaRec_step_above {k s : Nat} (hks : k ≤ s) (c a : Int)
    (h : c * 2 ^ s ≤ a) :
    c * 2 ^ s ≤ emaRec k s c a ∧ emaRec k s c a ≤ a := by
  by_cases hb : a < c * 2 ^ s + 2 ^ k
  · rw [emaRec_fixed hks c a h hb]
    exact ⟨h, le_refl a⟩
  · push_neg at hb
    obtain ⟨l, u⟩ := emaRec_above hks c a hb
    exact ⟨l, by linarith⟩

/-- At or below the target, one step stays at or below it and does not
decrease the accumulator. -/
theorem emaRec_step_below {k s : Nat} (hks : k ≤ s) (c a : Int)
    (h : a ≤ c * 2 ^ s) :
    a ≤ emaRec k s c a ∧ emaRec k s c a ≤ c * 2 ^ s := by
  rcases lt_or_eq_of_le h with hlt | heq
  · obtain ⟨l, u⟩ := emaRec_below hks c a hlt
    exact ⟨by linarith, u⟩
  · rw [emaRec_fixed hks c a (le_of_eq heq.symm)
      (by linarith [two_pow_pos k])]
    exact ⟨le_refl a, h⟩

/-- Iterates of the constant-sample recurrence never cross beneath the
target from above. -/
theorem emaRec_iterate_above {k s : Nat} (hks : k ≤ s) (c a : Int)
    (h : c * 2 ^ s ≤ a) (n : Nat) :
    c * 2 ^ s ≤ (emaRec k s c)^[n] a := by
  induction n with
  | zero => simpa using h
  | succ m ih =>
    rw [Function.iterate_succ_apply']
    exact (emaRec_step_above hks c _ ih).1

/-- Iterates of the constant-sample recurrence never cross past the
target from below. -/
theorem emaRec_iterate_below {k s : Nat} (hks : k ≤ s) (c a : Int)
    (h : a ≤ c * 2 ^ s) (n : Nat) :
    (emaRec k s c)^[n] a ≤ c * 2 ^ s := by
  induction n with
  | zero => simpa using h
  | succ m ih =>
    rw [Function.iterate_succ_apply']
    exact (emaRec_step_below hks c _ ih).2

/-- The band is absorbing: once inside, every iterate stays put. -/
theorem emaRec_band_iterate {k s : Nat} (hks : k ≤ s) (c a : Int)
    (h1 : c * 2 ^ s ≤ a) (h2 : a < c * 2 ^ s + 2 ^ k) (n : Nat) :
    (emaRec k s c)^[n] a = a := by
  induction n with
  | zero => rfl
  | succ m ih =>
    rw [Function.iterate_succ_apply', ih, emaRec_fixed hks c a h1 h2]

theorem natAbs_le_zero_eq {x T : Int} (h : (x - T).natAbs ≤ 0) : x = T := by
  omega

theorem natAbs_le_step {x y T : Int} {m : Nat} (h1 : T ≤ y) (h2 : y ≤ x - 1)
    (h3 : (x - T).natAbs ≤ m + 1) : (y - T).natAbs ≤ m := by
  omega

theorem natAbs_le_step' {x y T : Int} {m : Nat} (h1 : x + 1 ≤ y) (h2 : y ≤ T)
    (h3 : (x - T).natAbs ≤ m + 1) : (y - T).natAbs ≤ m := by
  omega

/-- Progress: after at least `|a - c * 2 ^ s|` constant-sample steps the
accumulator has entered the absorbing band at the target. -/
theorem emaRec_reaches_band {k s : Nat} (hks : k ≤ s) (c : Int) :
    ∀ (m : Nat) (a : Int), (a - c * 2 ^ s).natAbs ≤ m →
      c * 2 ^ s ≤ (emaRec k s c)^[m] a ∧
        (emaRec k s c)^[m] a < c * 2 ^ s + 2 ^ k := by
  intro m
  induction m with
  | zero =>
    intro a hm
    rw [natAbs_le_zero_eq hm, Function.iterate_zero_apply]
    exact ⟨le_refl _, by linarith [two_pow_pos k]⟩
  | succ m ih =>
    intro a hm
    by_cases hlo : c * 2 ^ s ≤ a
    · by_cases hhi : a < c * 2 ^ s + 2 ^ k
      · rw [emaRec_band_iterate hks c a hlo hhi]
        exact ⟨hlo, hhi⟩
      · push_neg at hhi
        obtain ⟨l, u⟩ := emaRec_above hks c a hhi
        rw [Function.iterate_succ_apply]
        exact ih _ (natAbs_le_step l u hm)
    · push_neg at hlo
      obtain ⟨l, u⟩ := emaRec_below hks c a hlo
      rw [Function.iterate_succ_apply]
      exact ih _ (natAbs_le_step' l u hm)

/-- With `k < s`, every accumulator in the band de-scales (with rounding)
to exactly `c`. -/
theorem getCurrentEMA_band_eq {k s : Nat} (hks : k < s) (c a : Int)
    (h1 : c * 2 ^ s ≤ a) (h2 : a < c * 2 ^ s + 2 ^ k) :
    (a + 2 ^ (s - 1)) / 2 ^ s = c := by
  have hs1 : 1 ≤ s := by omega
  have h2k : (2 : Int) ^ k ≤ 2 ^ (s - 1) :=
    pow_le_pow_right₀ (by norm_num) (by omega)
  have hmul := two_mul_rounding hs1
  have e : a + 2 ^ (s - 1) = c * 2 ^ s + (a - c * 2 ^ s + 2 ^ (s - 1)) := by
    ring
  rw [e]
  exact ediv_mul_add_eq s c _ (by linarith [two_pow_pos (s - 1)])
    (by linarith)

/-- Iterating `updateEMA` with a constant sample on an initialized state
only rewrites the accumulator, by iterating the recurrence `emaRec`. -/
theorem iterate_updateEMA_eq (st : ShiftyEMA) (hf : st.firstUpdate = false)
    (c : Int) (n : Nat) :
    (fun u => ShiftyEMA.updateEMA u c)^[n] st =
      { st with scaledEMA :=
          (emaRec st.smoothingExponent st.scale c)^[n] st.scaledEMA } := by
  induction n with
  | zero => rfl
  | succ m ih =>
    rw [Function.iterate_succ_apply', Function.iterate_succ_apply', ih]
    simp only [ShiftyEMA.updateEMA, emaRec, hf, Bool.false_eq_true, if_false]

/-- Fields of a reachable state: the configuration equals the
construction-time configuration. -/
theorem Reachable.fields {k s : Nat} {st : ShiftyEMA}
    (h : Reachable k s st) :
    st.smoothingExponent = k ∧ st.scale = s ∧ st.rounding = 2 ^ (s - 1) := by
  induction h with
  | init => exact ⟨rfl, rfl, rfl⟩
  | update v _ ih =>
    unfold ShiftyEMA.updateEMA
    split <;> exact ih
  | reset _ ih => exact ih

/-- The state after the first update of a fresh instance. -/
theorem init_updateEMA (k s : Nat) (x : Int) :
    (ShiftyEMA.init k s).updateEMA x =
      { scaledEMA := x * 2 ^ s
        smoothingExponent := k
        firstUpdate := false
        scale := s
        rounding := 2 ^ (s - 1) } := by
  rfl

/-- Reading a state whose accumulator is exactly `x * 2 ^ s` yields `x`,
provided `scale ≥ 1` so that `0 ≤ rounding < 2 ^ s`. -/
theorem getCurrentEMA_exact {s : Nat} (hs : 1 ≤ s) (st : ShiftyEMA)
    (hsc : st.scale = s) (hrd : st.rounding = 2 ^ (s - 1)) (x : Int)
    (ha : st.scaledEMA = x * 2 ^ s) :
    st.getCurrentEMA = x := by
  unfold ShiftyEMA.getCurrentEMA
  rw [hsc, hrd, ha]
  exact ediv_mul_add_eq s x _ (le_of_lt (two_pow_pos (s - 1)))
    (rounding_lt_pow hs)

/-! ### Claim theorems -/

/-- C1. Seeding: for every sample `x`, a fresh instance (any valid
smoothing exponent, any `scale ≥ 1`) returns exactly `x` from
`getCurrentEMA()` right after `updateEMA(x)`, negative `x` included. -/
theorem seed_read_exact (k s : Nat) (hk : ShiftyEMA.ValidSmoothing k)
    (hs : 1 ≤ s) (x : Int) :
    ((ShiftyEMA.init k s).updateEMA x).getCurrentEMA = x := by
  refine getCurrentEMA_exact hs _ ?_ ?_ x ?_ <;>
    rw [init_updateEMA]

/-- Witness for C1 at `k = 2`, `s = 4`, `x = -7`. -/
theorem seed_read_exact_witness :
    ShiftyEMA.ValidSmoothing 2 ∧ 1 ≤ 4 ∧
      ((ShiftyEMA.init 2 4).updateEMA (-7)).getCurrentEMA = -7 :=
  ⟨by decide, by decide, seed_read_exact 2 4 (by decide) (by decide) (-7)⟩

/-- C5. Rounding bound: in every reachable state with `scale ≥ 1`, the
de-scaled read differs from the exact rational value
`scaledEMA / 2 ^ scale` by at most one half. -/
theorem read_rounding_bound (k s : Nat) (st : ShiftyEMA) (hs : 1 ≤ s)
    (hst : Reachable k s st) :
    |(st.getCurrentEMA : ℚ) - (st.getScaledEMA : ℚ) / 2 ^ st.scale| ≤ 1 / 2 := by
  obtain ⟨h1, h2, h3⟩ := hst.fields
  unfold ShiftyEMA.getCurrentEMA ShiftyEMA.getScaledEMA
  rw [h2, h3]
  set a := st.scaledEMA with ha
  set r : Int := (a + 2 ^ (s - 1)) / 2 ^ s with hr
  have hlo : r * 2 ^ s ≤ a + 2 ^ (s - 1) :=
    Int.ediv_mul_le (a + 2 ^ (s - 1)) (two_pow_pos s).ne'
  have hhi : a + 2 ^ (s - 1) < (r + 1) * 2 ^ s :=
    Int.lt_ediv_add_one_mul_self (a + 2 ^ (s - 1)) (two_pow_pos s)
  have hQ : (0 : ℚ) < 2 ^ s := by positivity
  have hloQ : (r : ℚ) * 2 ^ s ≤ a + 2 ^ (s - 1) := by exact_mod_cast hlo
  have hhiQ : (a : ℚ) + 2 ^ (s - 1) < (r + 1) * 2 ^ s := by exact_mod_cast hhi
  have hhalf : (2 : ℚ) ^ (s - 1) * 2 = 2 ^ s := by
    rw [← pow_succ]
    congr 1
    omega
  have hsub : (r : ℚ) - a / 2 ^ s = (r * 2 ^ s - a) / 2 ^ s := by
    field_simp
  rw [hsub, abs_le]
  constructor
  · rw [le_div_iff₀ hQ]
    nlinarith [hhiQ, hhalf]
  · rw [div_le_iff₀ hQ]
    nlinarith [hloQ, hhalf]

/-- Witness for C5 at the reachable state `(init 2 4).updateEMA 3`. -/
theorem read_rounding_bound_witness :
    1 ≤ 4 ∧ Reachable 2 4 ((ShiftyEMA.init 2 4).updateEMA 3) ∧
      |((((ShiftyEMA.init 2 4).updateEMA 3).getCurrentEMA : ℚ)) -
          ((((ShiftyEMA.init 2 4).updateEMA 3).getScaledEMA : ℚ)) /
            2 ^ ((ShiftyEMA.init 2 4).updateEMA 3).scale| ≤ 1 / 2 :=
  ⟨by decide, Reachable.update 3 Reachable.init,
    read_rounding_bound 2 4 _ (by decide) (Reachable.update 3 Reachable.init)⟩

/-- C6. Reset restores seeding: from any reachable state, `reset()` then
`updateEMA(y)` reads back `y`, and the post-update state coincides with a
brand-new instance of the same configuration whose first sample was `y`. -/
theorem reset_restores_seeding (k s : Nat) (st : ShiftyEMA) (hs : 1 ≤ s)
    (hst : Reachable k s st) (y : Int) :
    (st.reset.updateEMA y).getCurrentEMA = y ∧
      st.reset.updateEMA y = (ShiftyEMA.init k s).updateEMA y := by
  obtain ⟨h1, h2, h3⟩ := hst.fields
  have hre : st.reset = ShiftyEMA.init k s := by
    cases st
    simp_all [ShiftyEMA.reset, ShiftyEMA.init]
  rw [hre]
  refine ⟨?_, rfl⟩
  refine getCurrentEMA_exact hs _ ?_ ?_ y ?_ <;> rw [init_updateEMA]

/-- Witness for C6 at the reachable state `(init 2 4).updateEMA 3`, `y = 9`. -/
theorem reset_restores_seeding_witness :
    1 ≤ 4 ∧ Reachable 2 4 ((ShiftyEMA.init 2 4).updateEMA 3) ∧
      ((((ShiftyEMA.init 2 4).updateEMA 3).reset.updateEMA 9).getCurrentEMA = 9 ∧
        ((ShiftyEMA.init 2 4).updateEMA 3).reset.updateEMA 9 =
          (ShiftyEMA.init 2 4).updateEMA 9) :=
  ⟨by decide, Reachable.update 3 Reachable.init,
    reset_restores_seeding 2 4 _ (by decide)
      (Reachable.update 3 Reachable.init) 9⟩

/-- C7. Idempotent reads: any number of consecutive `getCurrentEMA()` or
`getScaledEMA()` calls with no intervening update returns the same value
every time and leaves the state unchanged. -/
theorem reads_idempotent (st : ShiftyEMA) (n : Nat) :
    runOps st (List.replicate n Op.readCurrent) =
        (st, List.replicate n st.getCurrentEMA) ∧
    runOps st (List.replicate n Op.readScaled) =
        (st, List.replicate n st.getScaledEMA) := by
  induction n with
  | zero => exact ⟨rfl, rfl⟩
  | succ m ih =>
    refine ⟨?_, ?_⟩ <;>
      simp [List.replicate_succ, runOps, applyOp, ih.1, ih.2]

/-- C8. Uninitialized reads report zero: a fresh instance with `scale ≥ 1`,
and any reachable instance right after `reset()`, return `0` from both
`getCurrentEMA()` and `getScaledEMA()`. -/
theorem uninitialized_reads_zero (k s : Nat) (st : ShiftyEMA) (hs : 1 ≤ s)
    (hst : Reachable k s st) :
    (ShiftyEMA.init k s).getCurrentEMA = 0 ∧
    (ShiftyEMA.init k s).getScaledEMA = 0 ∧
    st.reset.getCurrentEMA = 0 ∧
    st.reset.getScaledEMA = 0 := by
  obtain ⟨h1, h2, h3⟩ := hst.fields
  refine ⟨?_, rfl, ?_, rfl⟩
  · exact getCurrentEMA_exact hs (ShiftyEMA.init k s) rfl rfl 0
      (by simp [ShiftyEMA.init])
  · exact getCurrentEMA_exact hs st.reset h2 h3 0 (by simp [ShiftyEMA.reset])

/-- Witness for C8 at `k = 2`, `s = 4`, `st = (init 2 4).updateEMA 3`. -/
theorem uninitialized_reads_zero_witness :
    1 ≤ 4 ∧ Reachable 2 4 ((ShiftyEMA.init 2 4).updateEMA 3) ∧
      ((ShiftyEMA.init 2 4).getCurrentEMA = 0 ∧
        (ShiftyEMA.init 2 4).getScaledEMA = 0 ∧
        ((ShiftyEMA.init 2 4).updateEMA 3).reset.getCurrentEMA = 0 ∧
        ((ShiftyEMA.init 2 4).updateEMA 3).reset.getScaledEMA = 0) :=
  ⟨by decide, Reachable.update 3 Reachable.init,
    uninitialized_reads_zero 2 4 _ (by decide)
      (Reachable.update 3 Reachable.init)⟩

/-- C9. Configuration frame: every operation — update, ingest-and-read,
both reads, and reset — leaves `smoothingExponent`, `scale` and the
rounding constant at their construction-time values. -/
theorem config_frame (st : ShiftyEMA) (op : Op) :
    (applyOp st op).1.smoothingExponent = st.smoothingExponent ∧
    (applyOp st op).1.scale = st.scale ∧
    (applyOp st op).1.rounding = st.rounding := by
  cases op with
  | update v => simpa [applyOp] using updateEMA_config st v
  | ingestRead v =>
    simpa [applyOp, ShiftyEMA.getCurrentEMAUpdate] using updateEMA_config st v
  | readCurrent => exact ⟨rfl, rfl, rfl⟩
  | readScaled => exact ⟨rfl, rfl, rfl⟩
  | resetOp => exact ⟨rfl, rfl, rfl⟩

/-- C10. Fixed point: if an initialized state's accumulator is exactly
`v * 2 ^ scale`, then `updateEMA(v)` leaves the whole state unchanged. -/
theorem fixed_point_update (st : ShiftyEMA) (v : Int)
    (hf : st.firstUpdate = false)
    (ha : st.scaledEMA = v * 2 ^ st.scale) :
    st.updateEMA v = st := by
  obtain ⟨a, k, fu, s, ρ⟩ := st
  dsimp only at hf ha
  subst hf
  unfold ShiftyEMA.updateEMA
  simp only [Bool.false_eq_true, if_false, ShiftyEMA.mk.injEq, and_true,
    true_and]
  rw [ha]
  ring

/-- Witness for C10 at the state reached by seeding `(init 2 4)` with 7. -/
theorem fixed_point_update_witness :
    ((ShiftyEMA.init 2 4).updateEMA 7).firstUpdate = false ∧
    ((ShiftyEMA.init 2 4).updateEMA 7).scaledEMA =
      7 * 2 ^ ((ShiftyEMA.init 2 4).updateEMA 7).scale ∧
    ((ShiftyEMA.init 2 4).updateEMA 7).updateEMA 7 =
      (ShiftyEMA.init 2 4).updateEMA 7 :=
  ⟨by decide, by decide,
    fixed_point_update _ 7 (by decide) (by decide)⟩

/-- C2. Worked example: with `SMOOTHING_VALUE_4` (shift 2) and scale 4,
`updateEMA(100)` reads back `100`; the next `updateEMA(200)` puts the
scaled accumulator at `2000` and reads back `125`. -/
theorem worked_example_smoothing4 :
    ((ShiftyEMA.init ShiftyEMA.SMOOTHING_VALUE_4 4).updateEMA 100).getCurrentEMA
        = 100 ∧
    (((ShiftyEMA.init ShiftyEMA.SMOOTHING_VALUE_4 4).updateEMA 100).updateEMA
        200).getScaledEMA = 2000 ∧
    (((ShiftyEMA.init ShiftyEMA.SMOOTHING_VALUE_4 4).updateEMA 100).updateEMA
        200).getCurrentEMA = 125 := by
  refine ⟨?_, ?_, ?_⟩ <;> decide

/-- C4 counterexample. Two instances differing only in the smoothing
exponent (`k1 = 1 < k2 = 2`, scale 4), fed the identical sample sequence
`0, 100, 100, 100` from the same seed: over the fourth update the `k2`
instance's estimate moves by 14 while the `k1` instance's moves by only 13,
so the stronger-smoothing instance does NOT change less per step. -/
theorem smoothing_strength_seq_cex :
    ((fun u => ShiftyEMA.updateEMA u 100)^[3]
          ((ShiftyEMA.init 1 4).updateEMA 0)).getCurrentEMA -
        ((fun u => ShiftyEMA.updateEMA u 100)^[2]
          ((ShiftyEMA.init 1 4).updateEMA 0)).getCurrentEMA = 13 ∧
    ((fun u => ShiftyEMA.updateEMA u 100)^[3]
          ((ShiftyEMA.init 2 4).updateEMA 0)).getCurrentEMA -
        ((fun u => ShiftyEMA.updateEMA u 100)^[2]
          ((ShiftyEMA.init 2 4).updateEMA 0)).getCurrentEMA = 14 ∧
    ¬ (|((fun u => ShiftyEMA.updateEMA u 100)^[3]
            ((ShiftyEMA.init 2 4).updateEMA 0)).getCurrentEMA -
          ((fun u => ShiftyEMA.updateEMA u 100)^[2]
            ((ShiftyEMA.init 2 4).updateEMA 0)).getCurrentEMA| <
        |((fun u => ShiftyEMA.updateEMA u 100)^[3]
            ((ShiftyEMA.init 1 4).updateEMA 0)).getCurrentEMA -
          ((fun u => ShiftyEMA.updateEMA u 100)^[2]
            ((ShiftyEMA.init 1 4).updateEMA 0)).getCurrentEMA|) := by
  refine ⟨?_, ?_, ?_⟩ <;> decide

/-- C4 (amended). For one update step applied to two initialized instances
in the same state except for the smoothing exponent (`k1 < k2`, `k2`
valid), the `k2` instance's estimate changes by at most as much as the
`k1` instance's — both for the scaled accumulator and for the rounded
read-out.  (Strict inequality fails, e.g. when both changes are zero, and
after the states diverge along a longer common sample sequence even the
weak inequality can flip, as the counterexample shows.) -/
theorem smoothing_strength_step_le
    (k1 k2 : Nat) (st1 st2 : ShiftyEMA) (v : Int)
    (hv2 : ShiftyEMA.ValidSmoothing k2) (h12 : k1 < k2)
    (hk1 : st1.smoothingExponent = k1) (hk2 : st2.smoothingExponent = k2)
    (hf1 : st1.firstUpdate = false) (hf2 : st2.firstUpdate = false)
    (hacc : st2.scaledEMA = st1.scaledEMA)
    (hsc : st2.scale = st1.scale) (hrd : st2.rounding = st1.rounding) :
    |(st2.updateEMA v).scaledEMA - st2.scaledEMA| ≤
        |(st1.updateEMA v).scaledEMA - st1.scaledEMA| ∧
    |(st2.updateEMA v).getCurrentEMA - st2.getCurrentEMA| ≤
        |(st1.updateEMA v).getCurrentEMA - st1.getCurrentEMA| := by
  have hS : (0 : Int) < 2 ^ st1.scale := two_pow_pos _
  have hch1 : (st1.updateEMA v).scaledEMA - st1.scaledEMA =
      v * 2 ^ st1.scale / 2 ^ k1 - st1.scaledEMA / 2 ^ k1 := by
    rw [updateEMA_scaled_change st1 v hf1, hk1]
  have hch2 : (st2.updateEMA v).scaledEMA - st1.scaledEMA =
      v * 2 ^ st1.scale / 2 ^ k2 - st1.scaledEMA / 2 ^ k2 := by
    rw [← hacc, updateEMA_scaled_change st2 v hf2, hk2, hacc, hsc]
  set d1 : Int := v * 2 ^ st1.scale / 2 ^ k1 - st1.scaledEMA / 2 ^ k1
    with hd1
  set d2 : Int := v * 2 ^ st1.scale / 2 ^ k2 - st1.scaledEMA / 2 ^ k2
    with hd2
  have hacc1 : (st1.updateEMA v).scaledEMA = st1.scaledEMA + d1 := by omega
  have hacc2 : (st2.updateEMA v).scaledEMA = st1.scaledEMA + d2 := by omega
  have hr1 : st1.getCurrentEMA =
      (st1.scaledEMA + st1.rounding) / 2 ^ st1.scale := rfl
  have hr2 : st2.getCurrentEMA =
      (st1.scaledEMA + st1.rounding) / 2 ^ st1.scale := by
    unfold ShiftyEMA.getCurrentEMA
    rw [hacc, hsc, hrd]
  have hru1 : (st1.updateEMA v).getCurrentEMA =
      (st1.scaledEMA + d1 + st1.rounding) / 2 ^ st1.scale := by
    unfold ShiftyEMA.getCurrentEMA
    rw [updateEMA_scale, updateEMA_rounding, hacc1]
  have hru2 : (st2.updateEMA v).getCurrentEMA =
      (st1.scaledEMA + d2 + st1.rounding) / 2 ^ st1.scale := by
    unfold ShiftyEMA.getCurrentEMA
    rw [updateEMA_scale, updateEMA_rounding, hacc2, hsc, hrd]
  rcases le_total st1.scaledEMA (v * 2 ^ st1.scale) with hat | hta
  · have h1 : 0 ≤ d1 := by
      rw [hd1]
      exact sub_nonneg.mpr (Int.ediv_le_ediv (two_pow_pos k1) hat)
    have h2 : 0 ≤ d2 := by
      rw [hd2]
      exact sub_nonneg.mpr (Int.ediv_le_ediv (two_pow_pos k2) hat)
    have hm : d2 ≤ d1 := by
      rw [hd1, hd2]
      exact ediv_pow_gap_antitone hat h12.le
    constructor
    · rw [hacc, hacc1, hacc2]
      simp only [add_sub_cancel_left]
      rw [abs_of_nonneg h2, abs_of_nonneg h1]
      exact hm
    · rw [hr1, hr2, hru1, hru2]
      have m1 : (st1.scaledEMA + st1.rounding) / 2 ^ st1.scale ≤
          (st1.scaledEMA + d2 + st1.rounding) / 2 ^ st1.scale :=
        Int.ediv_le_ediv hS (by omega)
      have m2 : (st1.scaledEMA + d2 + st1.rounding) / 2 ^ st1.scale ≤
          (st1.scaledEMA + d1 + st1.rounding) / 2 ^ st1.scale :=
        Int.ediv_le_ediv hS (by omega)
      rw [abs_of_nonneg (sub_nonneg.mpr m1),
        abs_of_nonneg (sub_nonneg.mpr (m1.trans m2))]
      exact sub_le_sub_right m2 _
  · have h1 : d1 ≤ 0 := by
      rw [hd1]
      exact sub_nonpos.mpr (Int.ediv_le_ediv (two_pow_pos k1) hta)
    have h2 : d2 ≤ 0 := by
      rw [hd2]
      exact sub_nonpos.mpr (Int.ediv_le_ediv (two_pow_pos k2) hta)
    have hm : d1 ≤ d2 := by
      have := ediv_pow_gap_antitone hta (le_of_lt h12)
      rw [hd1, hd2]
      omega
    constructor
    · rw [hacc, hacc1, hacc2]
      simp only [add_sub_cancel_left]
      rw [abs_of_nonpos h2, abs_of_nonpos h1]
      omega
    · rw [hr1, hr2, hru1, hru2]
      have m1 : (st1.scaledEMA + d2 + st1.rounding) / 2 ^ st1.scale ≤
          (st1.scaledEMA + st1.rounding) / 2 ^ st1.scale :=
        Int.ediv_le_ediv hS (by omega)
      have m2 : (st1.scaledEMA + d1 + st1.rounding) / 2 ^ st1.scale ≤
          (st1.scaledEMA + d2 + st1.rounding) / 2 ^ st1.scale :=
        Int.ediv_le_ediv hS (by omega)
      rw [abs_of_nonpos (sub_nonpos.mpr m1),
        abs_of_nonpos (sub_nonpos.mpr (m2.trans m1))]
      omega

/-- Witness for the amended C4 at the common seeded state `0`, sample 100,
with exponents 1 and 2 and scale 4. -/
theorem smoothing_strength_step_le_witness :
    ShiftyEMA.ValidSmoothing 2 ∧ 1 < 2 ∧
      (|((((ShiftyEMA.init 2 4).updateEMA 0).updateEMA 100).scaledEMA -
            ((ShiftyEMA.init 2 4).updateEMA 0).scaledEMA)| ≤
          |((((ShiftyEMA.init 1 4).updateEMA 0).updateEMA 100).scaledEMA -
            ((ShiftyEMA.init 1 4).updateEMA 0).scaledEMA)| ∧
        |((((ShiftyEMA.init 2 4).updateEMA 0).updateEMA 100).getCurrentEMA -
            ((ShiftyEMA.init 2 4).updateEMA 0).getCurrentEMA)| ≤
          |((((ShiftyEMA.init 1 4).updateEMA 0).updateEMA 100).getCurrentEMA -
            ((ShiftyEMA.init 1 4).updateEMA 0).getCurrentEMA)|) :=
  ⟨by decide, by decide,
    smoothing_strength_step_le 1 2 ((ShiftyEMA.init 1 4).updateEMA 0)
      ((ShiftyEMA.init 2 4).updateEMA 0) 100 (by decide) (by decide)
      (by decide) (by decide) (by decide) (by decide) (by decide) (by decide)
      (by decide)⟩

/-- C3 counterexample. The claim quantifies over every valid smoothing
exponent and every scale, but with `SMOOTHING_VALUE_512` (shift 9) and the
default scale 4 the filter can get permanently stuck away from the
constant input: after seeding with 16, feeding the constant 0 leaves the
state completely unchanged (the accumulator 256 satisfies `256 >> 9 = 0`),
so `getCurrentEMA()` stays 16 forever and never converges to 0. -/
theorem const_input_stuck_cex :
    ShiftyEMA.updateEMA (ShiftyEMA.updateEMA (ShiftyEMA.init 9 4) 16) 0 =
        ShiftyEMA.updateEMA (ShiftyEMA.init 9 4) 16 ∧
    (ShiftyEMA.updateEMA (ShiftyEMA.init 9 4) 16).getCurrentEMA = 16 := by
  exact ⟨by decide, by decide⟩

/-- C3 (amended). For every valid smoothing exponent `k` that is strictly
smaller than the scale, every reachable state and every constant sample
`c`: (1) after at most `|scaledEMA - c * 2 ^ scale| + 1` repeated
`updateEMA(c)` calls the read is exactly `c` and stays there; (2) from an
initialized state at or above the scaled target, reads stay at or above
`c` and decrease monotonically (no undershoot); (3) from an initialized
state at or below the target, reads stay at or below `c` and increase
monotonically (no overshoot).  (For `k ≥ scale` convergence fails, as the
counterexample shows, and the step count is bounded by the initial
distance rather than by `2 ^ k` alone.) -/
theorem const_input_convergence (k s : Nat) (hk : ShiftyEMA.ValidSmoothing k)
    (hks : k < s) (st : ShiftyEMA) (hst : Reachable k s st) (c : Int) :
    (∀ n : Nat, (st.scaledEMA - c * 2 ^ s).natAbs + 1 ≤ n →
        ((fun u => ShiftyEMA.updateEMA u c)^[n] st).getCurrentEMA = c) ∧
    (st.firstUpdate = false → c * 2 ^ s ≤ st.scaledEMA → ∀ n : Nat,
        c ≤ ((fun u => ShiftyEMA.updateEMA u c)^[n] st).getCurrentEMA ∧
        ((fun u => ShiftyEMA.updateEMA u c)^[n + 1] st).getCurrentEMA ≤
          ((fun u => ShiftyEMA.updateEMA u c)^[n] st).getCurrentEMA) ∧
    (st.firstUpdate = false → st.scaledEMA ≤ c * 2 ^ s → ∀ n : Nat,
        ((fun u => ShiftyEMA.updateEMA u c)^[n] st).getCurrentEMA ≤ c ∧
        ((fun u => ShiftyEMA.updateEMA u c)^[n] st).getCurrentEMA ≤
          ((fun u => ShiftyEMA.updateEMA u c)^[n + 1] st).getCurrentEMA) := by
  obtain ⟨hek, hes, her⟩ := hst.fields
  have hkle : k ≤ s := hks.le
  have hread : st.firstUpdate = false → ∀ n : Nat,
      ((fun u => ShiftyEMA.updateEMA u c)^[n] st).getCurrentEMA =
        ((emaRec k s c)^[n] st.scaledEMA + 2 ^ (s - 1)) / 2 ^ s := by
    intro hf n
    rw [iterate_updateEMA_eq st hf c n]
    unfold ShiftyEMA.getCurrentEMA
    dsimp only
    rw [hek, hes, her]
  have hband0 : c * 2 ^ s < c * 2 ^ s + 2 ^ k := by
    linarith [two_pow_pos k]
  refine ⟨?_, ?_, ?_⟩
  · intro n hn
    by_cases hf : st.firstUpdate = true
    · obtain ⟨m, rfl⟩ : ∃ m, n = m + 1 := ⟨n - 1, by omega⟩
      rw [Function.iterate_succ_apply]
      have hseed : ShiftyEMA.updateEMA st c =
          { st with scaledEMA := c * 2 ^ st.scale, firstUpdate := false } := by
        unfold ShiftyEMA.updateEMA
        simp [hf]
      rw [hseed]
      rw [iterate_updateEMA_eq _ rfl c m]
      unfold ShiftyEMA.getCurrentEMA
      dsimp only
      rw [hek, hes, her]
      rw [emaRec_band_iterate hkle c _ (le_refl _) hband0 m]
      exact getCurrentEMA_band_eq hks c _ (le_refl _) hband0
    · rw [Bool.not_eq_true] at hf
      rw [hread hf n]
      have hbd := emaRec_reaches_band hkle c n st.scaledEMA
        (Nat.le_of_succ_le hn)
      exact getCurrentEMA_band_eq hks c _ hbd.1 hbd.2
  · intro hf hge n
    have ha := emaRec_iterate_above hkle c st.scaledEMA hge
    have h0 : (c * 2 ^ s + 2 ^ (s - 1)) / 2 ^ s = c :=
      getCurrentEMA_band_eq hks c _ (le_refl _) hband0
    constructor
    · rw [hread hf n]
      calc c = (c * 2 ^ s + 2 ^ (s - 1)) / 2 ^ s := h0.symm
        _ ≤ ((emaRec k s c)^[n] st.scaledEMA + 2 ^ (s - 1)) / 2 ^ s :=
            Int.ediv_le_ediv (two_pow_pos s) (by linarith [ha n])
    · rw [hread hf n, hread hf (n + 1)]
      apply Int.ediv_le_ediv (two_pow_pos s)
      have hstep := (emaRec_step_above hkle c _ (ha n)).2
      rw [Function.iterate_succ_apply']
      linarith [hstep]
  · intro hf hle n
    have hb := emaRec_iterate_below hkle c st.scaledEMA hle
    have h0 : (c * 2 ^ s + 2 ^ (s - 1)) / 2 ^ s = c :=
      getCurrentEMA_band_eq hks c _ (le_refl _) hband0
    constructor
    · rw [hread hf n]
      calc ((emaRec k s c)^[n] st.scaledEMA + 2 ^ (s - 1)) / 2 ^ s
          ≤ (c * 2 ^ s + 2 ^ (s - 1)) / 2 ^ s :=
            Int.ediv_le_ediv (two_pow_pos s) (by linarith [hb n])
        _ = c := h0
    · rw [hread hf n, hread hf (n + 1)]
      apply Int.ediv_le_ediv (two_pow_pos s)
      have hstep := (emaRec_step_below hkle c _ (hb n)).1
      rw [Function.iterate_succ_apply']
      linarith [hstep]

/-- Witness for the amended C3: with shift 2, scale 4, constant sample 5
fed to a fresh instance, the read equals 5 after 81 steps
(the bound `|0 - 5 * 16| + 1`). -/
theorem const_input_convergence_witness :
    ShiftyEMA.ValidSmoothing 2 ∧ 2 < 4 ∧
      ((fun u => ShiftyEMA.updateEMA u 5)^[81]
        (ShiftyEMA.init 2 4)).getCurrentEMA = 5 :=
  ⟨by decide, by decide,
    (const_input_convergence 2 4 (by decide) (by decide) _ Reachable.init
      5).1 81 (by decide)⟩
